import Mathlib

/-!
Shallow embedding of `generate_test_numbers.py`: trial-division primality
testing, directional prime search, and the two semiprime constructors,
together with proofs of the specification's testable properties.

Conventions.  Python integers are modelled as `ℤ`; Python `//` is `Int.fdiv`
(floor division) and `%` with the positive divisor `2` is `Int.emod`.  The
Python expression `int(n**0.5)` (evaluated only for `n ≥ 3`) is modelled as
the integer square root, which is its exact value over the magnitudes the
script targets.  Each `while` loop is modelled as a structurally recursive
function over an explicit fuel parameter; wrappers supply a fuel that is
proved sufficient, so a wrapped function agrees with the Python loop
wherever that loop terminates, and a loop whose termination is not
guaranteed keeps its fuel explicit and returns an `Option`.
-/

/-- Linear-search integer square root: `isqrtGo n fuel k` advances `k` while
`(k+1)² ≤ n`, so it computes the greatest `k` with `k² ≤ n` given enough
fuel.  Written with structural recursion so that the kernel can evaluate
it. -/
def isqrtGo (n : ℕ) : ℕ → ℕ → ℕ
  | 0, k => k
  | fuel + 1, k => if (k + 1) * (k + 1) ≤ n then isqrtGo n fuel (k + 1) else k

/-- Integer square root; models the Python expression `int(n**0.5)`. -/
def isqrt (n : ℕ) : ℕ := isqrtGo n n 0

/-- The divisibility loop of `is_prime`: tests `m % i` for
`i = i₀, i₀ + 2, …` while `i ≤ bound`, mirroring the Python loop
`for i in range(3, int(n**0.5) + 1, 2)`. -/
def trialF (m bound : ℕ) : ℕ → ℕ → Bool
  | 0, _ => true
  | fuel + 1, i =>
    if bound < i then true
    else if m % i = 0 then false
    else trialF m bound fuel (i + 2)

/-- `is_prime` from the source: handles `n < 2`, `n = 2` and even `n`
directly, then trial-divides by the odd integers in `[3, int(n**0.5)]`. -/
def is_prime (n : ℤ) : Bool :=
  if n < 2 then false
  else if n = 2 then true
  else if n % 2 = 0 then false
  else trialF n.toNat (isqrt n.toNat) (isqrt n.toNat + 1) 3

/-- Starting candidate of `next_prime`: `n + 1` if `n` is even, else
`n + 2`; in both cases odd. -/
def nextStart (n : ℤ) : ℤ := if n % 2 = 0 then n + 1 else n + 2

/-- The search loop of `next_prime`: advance the candidate by 2 until
`is_prime` accepts it. -/
def nextLoopF : ℕ → ℤ → Option ℤ
  | 0, _ => none
  | fuel + 1, c => if is_prime c then some c else nextLoopF fuel (c + 2)

/-- Fuel that provably suffices for `nextLoopF` from an odd start
(`nextLoopF_some`), thanks to Bertrand's postulate. -/
def nextFuel (n : ℤ) : ℕ := (nextStart n).natAbs + 10

/-- `next_prime` from the source.  Because the starting candidate is odd the
loop always terminates within `nextFuel n` steps, so the default value of
`getD` is never used. -/
def next_prime (n : ℤ) : ℤ := (nextLoopF (nextFuel n) (nextStart n)).getD 0

/-- Starting candidate of `prev_prime`: `n - 1` if `n` is even, else
`n - 2`; in both cases odd. -/
def prevStart (n : ℤ) : ℤ := if n % 2 = 0 then n - 1 else n - 2

/-- The search loop of `prev_prime`: decrement the candidate by 2 while it
is greater than 2 and not prime. -/
def prevLoopF : ℕ → ℤ → Option ℤ
  | 0, _ => none
  | fuel + 1, c =>
    if 2 < c ∧ is_prime c = false then prevLoopF fuel (c - 2) else some c

/-- Fuel that always suffices for `prevLoopF` (`prevLoopF_some`): the
candidate strictly decreases and the loop stops at or below 2. -/
def prevFuel (n : ℤ) : ℕ := (prevStart n).toNat + 1

/-- `prev_prime` from the source.  This loop terminates unconditionally, so
the default value of `getD` is never used. -/
def prev_prime (n : ℤ) : ℤ := (prevLoopF (prevFuel n) (prevStart n)).getD 0

/-- Fueled decimal digit counter for a natural number. -/
def digitsF : ℕ → ℕ → ℕ
  | 0, _ => 0
  | fuel + 1, n => if n < 10 then 1 else digitsF fuel (n / 10) + 1

/-- Number of decimal digits of a natural number (`1` for `0`). -/
def numDigits (n : ℕ) : ℕ := digitsF (n + 1) n

/-- Models Python `len(str(x))` for an integer: digit count, plus one for
the minus sign when `x` is negative. -/
def lenStr (x : ℤ) : ℕ :=
  if x < 0 then numDigits x.natAbs + 1 else numDigits x.toNat

/-- The shrink loop of `generate_semiprime`: while the product has more than
`target_digits` digits, replace `q` by `prev_prime q` and recompute the
product. -/
def shrinkF (d : ℕ) (p : ℤ) : ℕ → ℤ → Option (ℤ × ℤ)
  | 0, _ => none
  | fuel + 1, q =>
    if d < lenStr (p * q) then shrinkF d p fuel (prev_prime q)
    else some (q, p * q)

/-- The grow loop of `generate_semiprime`: while the product has fewer than
`target_digits` digits, replace `q` by `next_prime q` and recompute the
product. -/
def growF (d : ℕ) (p : ℤ) : ℕ → ℤ → Option (ℤ × ℤ)
  | 0, _ => none
  | fuel + 1, q =>
    if lenStr (p * q) < d then growF d p fuel (next_prime q)
    else some (q, p * q)

/-- Body of `generate_semiprime` after `p` has been computed: derive the
initial `q = next_prime(target // p)`, run the shrink loop, then the grow
loop, and return `(p, q, product)`. -/
def gsBody (fuel d : ℕ) (p : ℤ) : Option (ℤ × ℤ × ℤ) :=
  (shrinkF d p fuel (next_prime (Int.fdiv ((10 : ℤ) ^ d) p))).bind fun s =>
    (growF d p fuel s.1).map fun g => (p, g.1, g.2)

/-- `generate_semiprime` with explicit fuel for the two adjustment loops
(the source gives them no iteration cap); `p = next_prime(10 ^ (d // 2))`
is computed once and never modified afterwards. -/
def generate_semiprimeF (fuel d : ℕ) : Option (ℤ × ℤ × ℤ) :=
  gsBody fuel d (next_prime ((10 : ℤ) ^ (d / 2)))

/-- `generate_semiprime` from the source, with a fuel that provably
suffices for every digit count `d ≥ 2`. -/
def generate_semiprime (d : ℕ) : Option (ℤ × ℤ × ℤ) :=
  generate_semiprimeF (10 ^ d + 10) d

/-- Lexicographic strict order on result triples: increasing `p`, then
increasing `q`. -/
def lexLT (a b : ℤ × ℤ × ℤ) : Prop :=
  a.1 < b.1 ∨ (a.1 = b.1 ∧ a.2.1 < b.2.1)

/-- Inner loop of `find_semiprimes_in_range`: for a fixed `p`, scan
`q, next_prime q, …` while `p*q ≤ max_val`, appending every triple that
passes the range and digit-count filter, and breaking once `count` results
have been collected. -/
def innerF (minV maxV count p : ℤ) :
    ℕ → ℤ → List (ℤ × ℤ × ℤ) → Option (List (ℤ × ℤ × ℤ))
  | 0, _, _ => none
  | fuel + 1, q, results =>
    if p * q ≤ maxV then
      if minV ≤ p * q ∧ p * q ≤ maxV ∧ lenStr (p * q) = lenStr minV then
        if count ≤ (((results ++ [(p, q, p * q)]).length : ℕ) : ℤ) then
          some (results ++ [(p, q, p * q)])
        else innerF minV maxV count p fuel (next_prime q) (results ++ [(p, q, p * q)])
      else innerF minV maxV count p fuel (next_prime q) results
    else some results

/-- Outer loop of `find_semiprimes_in_range`: advance `p` through primes
while fewer than `count` results have been found and `p² < max_val`. -/
def outerF (minV maxV count : ℤ) (innerFuel : ℕ) :
    ℕ → ℤ → List (ℤ × ℤ × ℤ) → Option (List (ℤ × ℤ × ℤ))
  | 0, _, _ => none
  | fuel + 1, p, results =>
    if (results.length : ℤ) < count ∧ p * p < maxV then
      (innerF minV maxV count p innerFuel (next_prime (Int.fdiv minV p)) results).bind
        (outerF minV maxV count innerFuel fuel (next_prime p))
    else some results

/-- `find_semiprimes_in_range` from the source.  Both loops provably
terminate within the supplied fuel (`find_semiprimes_eq`), so the default
value of `getD` is never used. -/
def find_semiprimes_in_range (minV maxV count : ℤ) : List (ℤ × ℤ × ℤ) :=
  (outerF minV maxV count (maxV.toNat + 2) (maxV.toNat + 2)
    (next_prime ((isqrt minV.toNat : ℕ) : ℤ)) []).getD []

/-- One output line of the curated report, abstracted from its exact
rendering. -/
inductive ReportLine where
  | header (digits : ℕ)
  | product (n p q : ℤ) (baseline : Bool)
  | errorFactor (p q n : ℤ)
  | errorDigits (n : ℤ) (digits : ℕ)
  | blank
deriving DecidableEq

/-- Per-entry logic of the report loop: check `p * q == n`, then the digit
count, and emit the product line (tagged BASELINE for the 8-digit group) or
the matching error line. -/
def entryLine (digits : ℕ) (e : ℤ × ℤ × ℤ) : ReportLine :=
  if e.1 * e.2.1 ≠ e.2.2 then ReportLine.errorFactor e.1 e.2.1 e.2.2
  else if lenStr e.2.2 ≠ digits then ReportLine.errorDigits e.2.2 digits
  else ReportLine.product e.2.2 e.1 e.2.1 (decide (digits = 8))

/-- Lines contributed by one digit group: header, one line per entry, then
a blank line. -/
def groupLines (digits : ℕ) (entries : List (ℤ × ℤ × ℤ)) : List ReportLine :=
  ReportLine.header digits :: entries.map (entryLine digits) ++ [ReportLine.blank]

/-- The report body: iterate the digit groups (already in ascending key
order) and emit each group's lines in turn. -/
def reportLines : List (ℕ × List (ℤ × ℤ × ℤ)) → List ReportLine
  | [] => []
  | g :: gs => groupLines g.1 g.2 ++ reportLines gs

/-- The curated `test_numbers` table from the source, with the digit keys
listed in the ascending order in which the report iterates them. -/
def test_numbers : List (ℕ × List (ℤ × ℤ × ℤ)) :=
  [(8, [(6917, 6923, 47893197)]),
   (9, [(10007, 31469, 314920583), (14143, 23971, 339023653),
        (18713, 19681, 368237353)]),
   (10, [(31627, 31657, 1001163139), (100003, 99991, 9999399973),
         (158233, 189389, 29968661137)]),
   (11, [(316513, 316549, 100179924437), (500009, 630007, 315008630063),
         (707089, 811447, 573881819183)]),
   (12, [(1000003, 999983, 999985999949), (2236067, 1483637, 3317738819279)])]

lemma isqrtGo_eq (n : ℕ) :
    ∀ fuel k, k * k ≤ n → Nat.sqrt n ≤ k + fuel → isqrtGo n fuel k = Nat.sqrt n := by
  intro fuel
  induction fuel with
  | zero =>
    intro k h1 h2
    have hk : k ≤ Nat.sqrt n := Nat.le_sqrt.2 h1
    show k = Nat.sqrt n
    omega
  | succ f ih =>
    intro k h1 h2
    by_cases h : (k + 1) * (k + 1) ≤ n
    · have : isqrtGo n (f + 1) k = isqrtGo n f (k + 1) := by simp [isqrtGo, h]
      rw [this]
      exact ih (k + 1) h (by omega)
    · have hlt : Nat.sqrt n < k + 1 := Nat.sqrt_lt.2 (by omega)
      have hk : k ≤ Nat.sqrt n := Nat.le_sqrt.2 h1
      have : isqrtGo n (f + 1) k = k := by simp [isqrtGo, h]
      rw [this]
      omega

lemma isqrt_eq (n : ℕ) : isqrt n = Nat.sqrt n :=
  isqrtGo_eq n n 0 (by simp) (by simpa using Nat.sqrt_le_self n)

lemma trialF_eq_true_iff (m bound : ℕ) :
    ∀ fuel i, 0 < i → bound < i + 2 * fuel →
      (trialF m bound fuel i = true ↔
        ∀ j, i ≤ j → j ≤ bound → (j - i) % 2 = 0 → ¬ j ∣ m) := by
  intro fuel
  induction fuel with
  | zero =>
    intro i hi hb
    constructor
    · intro _ j hj1 hj2 _
      omega
    · intro _
      rfl
  | succ f ih =>
    intro i hi hb
    have hunf : trialF m bound (f + 1) i =
        (if bound < i then true
         else if m % i = 0 then false
         else trialF m bound f (i + 2)) := rfl
    by_cases h1 : bound < i
    · rw [hunf, if_pos h1]
      constructor
      · intro _ j hj1 hj2 _
        omega
      · intro _
        rfl
    · by_cases h2 : m % i = 0
      · rw [hunf, if_neg h1, if_pos h2]
        have hdvd : i ∣ m := Nat.dvd_iff_mod_eq_zero.2 h2
        constructor
        · intro hfalse
          exact absurd hfalse (by simp)
        · intro hall
          exact absurd hdvd (hall i le_rfl (by omega) (by omega))
      · rw [hunf, if_neg h1, if_neg h2]
        have hdvd : ¬ i ∣ m := fun hd => h2 (Nat.dvd_iff_mod_eq_zero.1 hd)
        rw [ih (i + 2) (by omega) (by omega)]
        constructor
        · intro hall j hj1 hj2 hpar
          rcases Nat.eq_or_lt_of_le hj1 with heq | hlt
          · rw [← heq]
            exact hdvd
          · exact hall j (by omega) hj2 (by omega)
        · intro hall j hj1 hj2 hpar
          exact hall j (by omega) hj2 (by omega)

lemma is_prime_iff {n : ℤ} : is_prime n = true ↔ 2 ≤ n ∧ Prime n := by
  by_cases hlt : n < 2
  · have hfalse : is_prime n = false := by simp [is_prime, hlt]
    rw [hfalse]
    constructor
    · intro h
      exact absurd h (by simp)
    · intro ⟨h, _⟩
      omega
  · by_cases h2 : n = 2
    · subst h2
      have : is_prime 2 = true := by rfl
      rw [this]
      simp only [true_iff]
      exact ⟨le_refl 2, Int.prime_two⟩
    · have hn3 : 3 ≤ n := by omega
      have hnat : (n.toNat : ℤ) = n := by omega
      have hprime : Prime n ↔ Nat.Prime n.toNat := by
        rw [Int.prime_iff_natAbs_prime]
        have : n.natAbs = n.toNat := by omega
        rw [this]
      by_cases heven : n % 2 = 0
      · have hfalse : is_prime n = false := by simp [is_prime, hlt, h2, heven]
        rw [hfalse]
        constructor
        · intro h
          exact absurd h (by simp)
        · intro ⟨_, hpr⟩
          rw [hprime] at hpr
          have hev : Even n.toNat := ⟨n.toNat / 2, by omega⟩
          have := (Nat.Prime.even_iff hpr).1 hev
          omega
      · have hodd : n % 2 = 1 := by omega
        have hN : 3 ≤ n.toNat := by omega
        have hNodd : n.toNat % 2 = 1 := by omega
        have hunf : is_prime n =
            trialF n.toNat (isqrt n.toNat) (isqrt n.toNat + 1) 3 := by
          simp [is_prime, hlt, h2, heven]
        rw [hunf, isqrt_eq,
          trialF_eq_true_iff n.toNat (Nat.sqrt n.toNat) (Nat.sqrt n.toNat + 1) 3
            (by omega) (by omega)]
        constructor
        · intro hall
          refine ⟨by omega, ?_⟩
          rw [hprime]
          rw [Nat.prime_def_le_sqrt]
          refine ⟨by omega, ?_⟩
          intro m hm2 hmsqrt hdvd
          rcases Nat.even_or_odd m with hev | hod
          · have h2d : 2 ∣ n.toNat := dvd_trans (even_iff_two_dvd.1 hev) hdvd
            omega
          · have hm3 : 3 ≤ m := by
              rcases hod with ⟨r, hr⟩
              omega
            have hpar : (m - 3) % 2 = 0 := by
              rcases hod with ⟨r, hr⟩
              omega
            exact hall m hm3 hmsqrt hpar hdvd
        · intro ⟨_, hp⟩ j hj3 hjsqrt hpar hdvd
          rw [hprime] at hp
          have hjlt : j < n.toNat := by
            have := Nat.sqrt_lt_self (by omega : 1 < n.toNat)
            omega
          rcases (Nat.Prime.eq_one_or_self_of_dvd hp j hdvd) with h | h
          · omega
          · omega

lemma nextStart_odd (n : ℤ) : nextStart n % 2 = 1 := by
  unfold nextStart
  split <;> omega

lemma nextStart_gt (n : ℤ) : n < nextStart n := by
  unfold nextStart
  split <;> omega

lemma nextStart_cases (n : ℤ) : nextStart n = n + 1 ∨ nextStart n = n + 2 := by
  unfold nextStart
  split
  · exact Or.inl rfl
  · exact Or.inr rfl

lemma nextLoopF_spec :
    ∀ fuel (c p : ℤ), nextLoopF fuel c = some p →
      is_prime p = true ∧ c ≤ p ∧ (p - c) % 2 = 0 ∧
        ∀ m, c ≤ m → m < p → (m - c) % 2 = 0 → is_prime m = false := by
  intro fuel
  induction fuel with
  | zero =>
    intro c p h
    exact absurd h (by simp [nextLoopF])
  | succ f ih =>
    intro c p h
    by_cases hc : is_prime c
    · have hcp : c = p := by
        have : nextLoopF (f + 1) c = some c := by simp [nextLoopF, hc]
        rw [this] at h
        exact Option.some.inj h
      subst hcp
      refine ⟨hc, le_refl c, by omega, ?_⟩
      intro m h1 h2 _
      exfalso
      omega
    · have hstep : nextLoopF (f + 1) c = nextLoopF f (c + 2) := by
        simp [nextLoopF, hc]
      rw [hstep] at h
      obtain ⟨h1, h2, h3, h4⟩ := ih (c + 2) p h
      have hcfalse : is_prime c = false := by
        simpa using hc
      refine ⟨h1, by omega, by omega, ?_⟩
      intro m hm1 hm2 hm3
      have : m = c ∨ c + 2 ≤ m := by omega
      rcases this with heq | hge
      · rw [heq]
        exact hcfalse
      · exact h4 m hge hm2 (by omega)

lemma nextLoopF_some_of_prime :
    ∀ (k fuel : ℕ) (c : ℤ), k < fuel → is_prime (c + 2 * k) = true →
      ∃ p, nextLoopF fuel c = some p := by
  intro k
  induction k with
  | zero =>
    intro fuel c hf hp
    cases fuel with
    | zero => exact absurd hf (by omega)
    | succ f =>
      have hc : is_prime c = true := by
        have : c + 2 * ((0 : ℕ) : ℤ) = c := by norm_num
        rwa [this] at hp
      exact ⟨c, by simp [nextLoopF, hc]⟩
  | succ k ih =>
    intro fuel c hf hp
    cases fuel with
    | zero => exact absurd hf (by omega)
    | succ f =>
      by_cases hc : is_prime c
      · exact ⟨c, by simp [nextLoopF, hc]⟩
      · have hshift : (c + 2) + 2 * (k : ℤ) = c + 2 * ((k : ℕ) + 1 : ℕ) := by
          push_cast
          ring
        obtain ⟨p, hp'⟩ := ih f (c + 2) (by omega) (by rw [hshift]; exact hp)
        exact ⟨p, by simp [nextLoopF, hc, hp']⟩

lemma exists_odd_prime_target (c : ℤ) (hodd : c % 2 = 1) :
    ∃ k : ℕ, is_prime (c + 2 * k) = true ∧ k < c.natAbs + 10 := by
  by_cases hc : c ≤ 3
  · refine ⟨((3 - c) / 2).toNat, ?_, by omega⟩
    have h2 : c + 2 * ((((3 - c) / 2).toNat : ℕ) : ℤ) = 3 := by omega
    rw [h2]
    decide
  · obtain ⟨P, hP, h1, h2⟩ := Nat.exists_prime_lt_and_le_two_mul c.toNat (by omega)
    have hPodd : P % 2 = 1 := Nat.odd_iff.1 (hP.odd_of_ne_two (by omega))
    have hip : is_prime (P : ℤ) = true := by
      rw [is_prime_iff]
      exact ⟨by exact_mod_cast hP.two_le, Nat.prime_iff_prime_int.1 hP⟩
    refine ⟨((P : ℤ) - c).toNat / 2, ?_, by omega⟩
    have heq : c + 2 * ((((P : ℤ) - c).toNat / 2 : ℕ) : ℤ) = (P : ℤ) := by omega
    rw [heq]
    exact hip

lemma next_prime_eq_some (n : ℤ) :
    ∃ p, nextLoopF (nextFuel n) (nextStart n) = some p := by
  obtain ⟨k, hk1, hk2⟩ := exists_odd_prime_target (nextStart n) (nextStart_odd n)
  exact nextLoopF_some_of_prime k (nextFuel n) (nextStart n) (by unfold nextFuel; omega) hk1

lemma next_prime_spec (n : ℤ) :
    is_prime (next_prime n) = true ∧ n < next_prime n ∧ next_prime n % 2 = 1 ∧
      ∀ m : ℤ, n < m → m < next_prime n → m % 2 = 1 → is_prime m = false := by
  obtain ⟨p, hp⟩ := next_prime_eq_some n
  have hval : next_prime n = p := by
    unfold next_prime
    rw [hp]
    rfl
  obtain ⟨h1, h2, h3, h4⟩ := nextLoopF_spec _ _ _ hp
  have hso : nextStart n % 2 = 1 := nextStart_odd n
  have hsg : n < nextStart n := nextStart_gt n
  have hcases := nextStart_cases n
  rw [hval]
  refine ⟨h1, by omega, by omega, ?_⟩
  intro m hm1 hm2 hmo
  have hms : nextStart n ≤ m := by omega
  exact h4 m hms hm2 (by omega)

lemma next_prime_ge_three (n : ℤ) : 3 ≤ next_prime n := by
  obtain ⟨h1, _, h3, _⟩ := next_prime_spec n
  have := (is_prime_iff.1 h1).1
  omega

lemma next_prime_le (n m : ℤ) (h1 : n < m) (h2 : m % 2 = 1)
    (h3 : is_prime m = true) : next_prime n ≤ m := by
  by_contra hcon
  push_neg at hcon
  have := (next_prime_spec n).2.2.2 m h1 hcon h2
  rw [h3] at this
  exact absurd this (by simp)

lemma next_prime_le_two_mul (n : ℤ) (hn : 2 ≤ n) : next_prime n ≤ 2 * n := by
  obtain ⟨P, hP, h1, h2⟩ := Nat.exists_prime_lt_and_le_two_mul n.toNat (by omega)
  have hPodd : P % 2 = 1 := Nat.odd_iff.1 (hP.odd_of_ne_two (by omega))
  have hip : is_prime (P : ℤ) = true := by
    rw [is_prime_iff]
    exact ⟨by exact_mod_cast hP.two_le, Nat.prime_iff_prime_int.1 hP⟩
  have := next_prime_le n P (by omega) (by omega) hip
  omega

lemma prevStart_odd (n : ℤ) : prevStart n % 2 = 1 := by
  unfold prevStart
  split <;> omega

lemma prevStart_cases (n : ℤ) : prevStart n = n - 1 ∨ prevStart n = n - 2 := by
  unfold prevStart
  split
  · exact Or.inl rfl
  · exact Or.inr rfl

lemma prevLoopF_some :
    ∀ (fuel : ℕ) (c : ℤ), c ≤ 2 * fuel → ∃ r, prevLoopF (fuel + 1) c = some r := by
  intro fuel
  induction fuel with
  | zero =>
    intro c hc
    have hguard : ¬ (2 < c ∧ is_prime c = false) := by
      intro ⟨h, _⟩
      omega
    exact ⟨c, by simp [prevLoopF, hguard]⟩
  | succ f ih =>
    intro c hc
    by_cases hguard : 2 < c ∧ is_prime c = false
    · have hstep : prevLoopF (f + 1 + 1) c = prevLoopF (f + 1) (c - 2) := by
        simp [prevLoopF, hguard]
      obtain ⟨r, hr⟩ := ih (c - 2) (by omega)
      exact ⟨r, by rw [hstep]; exact hr⟩
    · exact ⟨c, by simp [prevLoopF, hguard]⟩

lemma prevLoopF_spec :
    ∀ fuel (c r : ℤ), prevLoopF fuel c = some r →
      r ≤ c ∧ (c - r) % 2 = 0 ∧ (r ≤ 2 ∨ is_prime r = true) ∧
        ∀ m, r < m → m ≤ c → (m - r) % 2 = 0 → is_prime m = false := by
  intro fuel
  induction fuel with
  | zero =>
    intro c r h
    exact absurd h (by simp [prevLoopF])
  | succ f ih =>
    intro c r h
    by_cases hguard : 2 < c ∧ is_prime c = false
    · have hstep : prevLoopF (f + 1) c = prevLoopF f (c - 2) := by
        simp [prevLoopF, hguard]
      rw [hstep] at h
      obtain ⟨h1, h2, h3, h4⟩ := ih (c - 2) r h
      refine ⟨by omega, by omega, h3, ?_⟩
      intro m hm1 hm2 hm3
      have : m ≤ c - 2 ∨ m = c := by omega
      rcases this with hle | heq
      · exact h4 m hm1 hle hm3
      · rw [heq]
        exact hguard.2
    · have hsome : prevLoopF (f + 1) c = some c := by
        simp [prevLoopF, hguard]
      rw [hsome] at h
      have hcr : c = r := Option.some.inj h
      subst hcr
      refine ⟨le_refl c, by omega, ?_, ?_⟩
      · by_cases h2 : 2 < c
        · right
          rcases Bool.eq_false_or_eq_true (is_prime c) with ht | hf
          · exact ht
          · exact absurd ⟨h2, hf⟩ hguard
        · left
          omega
      · intro m hm1 hm2 _
        exfalso
        omega

lemma prev_prime_eq_some (n : ℤ) :
    ∃ r, prevLoopF (prevFuel n) (prevStart n) = some r := by
  unfold prevFuel
  exact prevLoopF_some ((prevStart n).toNat) (prevStart n) (by omega)

lemma prev_prime_spec (n : ℤ) :
    prev_prime n < n ∧ prev_prime n % 2 = 1 ∧
      (prev_prime n ≤ 2 ∨ is_prime (prev_prime n) = true) ∧
        ∀ m : ℤ, prev_prime n < m → m < n → m % 2 = 1 → is_prime m = false := by
  obtain ⟨r, hr⟩ := prev_prime_eq_some n
  have hval : prev_prime n = r := by
    unfold prev_prime
    rw [hr]
    rfl
  obtain ⟨h1, h2, h3, h4⟩ := prevLoopF_spec _ _ _ hr
  have hso : prevStart n % 2 = 1 := prevStart_odd n
  have hcases := prevStart_cases n
  rw [hval]
  refine ⟨by omega, by omega, h3, ?_⟩
  intro m hm1 hm2 hmo
  have hms : m ≤ prevStart n := by omega
  exact h4 m hm1 hms (by omega)

lemma is_prime_odd_or_two (m : ℤ) (h : is_prime m = true) :
    m = 2 ∨ m % 2 = 1 := by
  have h2 := (is_prime_iff.1 h).1
  by_cases hm : m = 2
  · exact Or.inl hm
  · right
    by_cases hmod : m % 2 = 0
    · have : is_prime m = false := by
        simp [is_prime, hmod, show ¬ m < 2 by omega, hm]
      rw [this] at h
      exact absurd h (by simp)
    · omega

lemma prev_prime_ge (n m : ℤ) (h2 : 2 < m) (hm : is_prime m = true)
    (hlt : m < n) : m ≤ prev_prime n := by
  by_contra hcon
  push_neg at hcon
  have hodd : m % 2 = 1 := by
    rcases is_prime_odd_or_two m hm with h | h
    · omega
    · exact h
  have := (prev_prime_spec n).2.2.2 m hcon hlt hodd
  rw [hm] at this
  exact absurd this (by simp)

lemma prev_prime_of_gt_three (n : ℤ) (h : 3 < n) :
    is_prime (prev_prime n) = true ∧ 3 ≤ prev_prime n := by
  have h3 : (3 : ℤ) ≤ prev_prime n := prev_prime_ge n 3 (by omega) (by decide) h
  obtain ⟨_, _, hor, _⟩ := prev_prime_spec n
  rcases hor with hle | hp
  · exact absurd h3 (by omega)
  · exact ⟨hp, h3⟩

lemma prev_prime_half (n : ℤ) (h : 7 ≤ n) : n ≤ 2 * prev_prime n := by
  obtain ⟨P, hP, h1, h2⟩ :=
    Nat.exists_prime_lt_and_le_two_mul ((n - 1) / 2).toNat (by omega)
  have hip : is_prime (P : ℤ) = true := by
    rw [is_prime_iff]
    exact ⟨by exact_mod_cast hP.two_le, Nat.prime_iff_prime_int.1 hP⟩
  have hge := prev_prime_ge n P (by omega) hip (by omega)
  omega

lemma digitsF_eq_log :
    ∀ fuel n, n < fuel → digitsF fuel n = Nat.log 10 n + 1 := by
  intro fuel
  induction fuel with
  | zero =>
    intro n h
    exact absurd h (by omega)
  | succ f ih =>
    intro n h
    by_cases h10 : n < 10
    · have h1 : digitsF (f + 1) n = 1 := by simp [digitsF, h10]
      have h2 : Nat.log 10 n = 0 := Nat.log_of_lt h10
      omega
    · have hrec : digitsF (f + 1) n = digitsF f (n / 10) + 1 := by
        simp [digitsF, h10]
      rw [hrec, ih (n / 10) (by omega)]
      have : Nat.log 10 n = Nat.log 10 (n / 10) + 1 :=
        Nat.log_of_one_lt_of_le (by norm_num) (by omega)
      omega

lemma numDigits_eq_log (n : ℕ) : numDigits n = Nat.log 10 n + 1 :=
  digitsF_eq_log (n + 1) n (by omega)

lemma numDigits_eq_iff {n d : ℕ} (hn : 1 ≤ n) (hd : 1 ≤ d) :
    numDigits n = d ↔ 10 ^ (d - 1) ≤ n ∧ n < 10 ^ d := by
  rw [numDigits_eq_log]
  constructor
  · intro h
    have hlog : Nat.log 10 n = d - 1 := by omega
    constructor
    · rw [← hlog]
      exact Nat.pow_log_le_self 10 (by omega)
    · have hlt : n < 10 ^ (Nat.log 10 n + 1) :=
        Nat.lt_pow_succ_log_self (by norm_num : 1 < 10) n
      have heq : Nat.log 10 n + 1 = d := by omega
      rw [heq] at hlt
      exact hlt
  · intro ⟨h1, h2⟩
    have hd1 : d - 1 + 1 = d := by omega
    have hlog : Nat.log 10 n = d - 1 :=
      Nat.log_eq_of_pow_le_of_lt_pow h1 (by rw [hd1]; exact h2)
    omega

lemma lenStr_eq_iff {x : ℤ} {d : ℕ} (hx : 1 ≤ x) (hd : 1 ≤ d) :
    lenStr x = d ↔ (10 : ℤ) ^ (d - 1) ≤ x ∧ x < (10 : ℤ) ^ d := by
  unfold lenStr
  rw [if_neg (by omega)]
  rw [numDigits_eq_iff (by omega) hd]
  have e1 : ((10 ^ (d - 1) : ℕ) : ℤ) = (10 : ℤ) ^ (d - 1) := by push_cast; ring
  have e2 : ((10 ^ d : ℕ) : ℤ) = (10 : ℤ) ^ d := by push_cast; ring
  omega

lemma lenStr_gt_iff {x : ℤ} {d : ℕ} (hx : 1 ≤ x) :
    d < lenStr x ↔ (10 : ℤ) ^ d ≤ x := by
  unfold lenStr
  rw [if_neg (by omega)]
  rw [numDigits_eq_log]
  have e2 : ((10 ^ d : ℕ) : ℤ) = (10 : ℤ) ^ d := by push_cast; ring
  have hiff : 10 ^ d ≤ x.toNat ↔ d ≤ Nat.log 10 x.toNat :=
    Nat.pow_le_iff_le_log (by norm_num) (by omega)
  omega

lemma lenStr_ge_one {x : ℤ} (hx : 0 ≤ x) : 1 ≤ lenStr x := by
  unfold lenStr
  rw [if_neg (by omega)]
  rw [numDigits_eq_log]
  omega

lemma shrinkF_correct (d h : ℕ) (p : ℤ) (hh1 : 1 ≤ h) (hhd : h + 2 ≤ d)
    (hp0 : 0 < p) (hple : p ≤ 2 * 10 ^ h) :
    ∀ fuel (q : ℤ), is_prime q = true → (10 : ℤ) ^ (d - 1) ≤ p * q →
      q.toNat < fuel →
      ∃ q', shrinkF d p fuel q = some (q', p * q') ∧ is_prime q' = true ∧
        (10 : ℤ) ^ (d - 1) ≤ p * q' ∧ p * q' < 10 ^ d := by
  intro fuel
  induction fuel with
  | zero =>
    intro q _ _ hf
    exact absurd hf (by omega)
  | succ f ih =>
    intro q hq hlow hf
    have hpow_pos : (0 : ℤ) < 10 ^ (d - 1) := pow_pos (by norm_num) _
    have hpq1 : (1 : ℤ) ≤ p * q := by omega
    by_cases hg : d < lenStr (p * q)
    · have hge : (10 : ℤ) ^ d ≤ p * q := (lenStr_gt_iff hpq1).1 hg
      have hq2 : 2 ≤ q := (is_prime_iff.1 hq).1
      have step1 : p * q ≤ 2 * 10 ^ h * q :=
        mul_le_mul_of_nonneg_right hple (by omega)
      have step2 : (10 : ℤ) ^ h * 10 ^ (d - h) ≤ 10 ^ h * (2 * q) := by
        calc (10 : ℤ) ^ h * 10 ^ (d - h) = 10 ^ d := by
              rw [← pow_add]
              congr 1
              omega
          _ ≤ p * q := hge
          _ ≤ 2 * 10 ^ h * q := step1
          _ = 10 ^ h * (2 * q) := by ring
      have step3 : (10 : ℤ) ^ (d - h) ≤ 2 * q :=
        le_of_mul_le_mul_left step2 (pow_pos (by norm_num) h)
      have h100 : (100 : ℤ) ≤ 10 ^ (d - h) := by
        calc (100 : ℤ) = 10 ^ 2 := by norm_num
          _ ≤ 10 ^ (d - h) := pow_le_pow_right₀ (by norm_num) (by omega)
      have hq50 : 50 ≤ q := by omega
      obtain ⟨hq'p, hq'3⟩ := prev_prime_of_gt_three q (by omega)
      have hhalf := prev_prime_half q (by omega)
      have hlt' : prev_prime q < q := (prev_prime_spec q).1
      have hlow' : (10 : ℤ) ^ (d - 1) ≤ p * prev_prime q := by
        have e : (10 : ℤ) ^ d = 10 ^ (d - 1) * 10 := by
          rw [← pow_succ]
          congr 1
          omega
        have h2p : p * q ≤ p * (2 * prev_prime q) :=
          mul_le_mul_of_nonneg_left hhalf (by omega)
        nlinarith
      obtain ⟨q', he, p1, p2, p3⟩ := ih (prev_prime q) hq'p hlow' (by omega)
      refine ⟨q', ?_, p1, p2, p3⟩
      have hstep : shrinkF d p (f + 1) q = shrinkF d p f (prev_prime q) := by
        simp [shrinkF, hg]
      rw [hstep]
      exact he
    · refine ⟨q, by simp [shrinkF, hg], hq, hlow, ?_⟩
      have hnot : ¬ (10 : ℤ) ^ d ≤ p * q := fun hcon =>
        hg ((lenStr_gt_iff hpq1).2 hcon)
      omega

lemma gsBody_eq_some {fuel d : ℕ} {p q1 prod1 : ℤ} {g : ℤ × ℤ}
    (hs : shrinkF d p fuel (next_prime (Int.fdiv ((10 : ℤ) ^ d) p)) =
      some (q1, prod1))
    (hg : growF d p fuel q1 = some g) :
    gsBody fuel d p = some (p, g.1, g.2) := by
  unfold gsBody
  rw [hs]
  simp [hg]

lemma gsBody_fst {fuel d : ℕ} {p : ℤ} {r : ℤ × ℤ × ℤ}
    (h : gsBody fuel d p = some r) : r.1 = p := by
  unfold gsBody at h
  rw [Option.bind_eq_some] at h
  obtain ⟨s, hs, h2⟩ := h
  rw [Option.map_eq_some'] at h2
  obtain ⟨g, hg, h3⟩ := h2
  rw [← h3]

lemma generate_semiprime_valid_of_ge3 (d : ℕ) (hd : 3 ≤ d) :
    ∃ p q n, generate_semiprime d = some (p, q, n) ∧ is_prime p = true ∧
      is_prime q = true ∧ p * q = n ∧ lenStr n = d := by
  have hh1 : 1 ≤ d / 2 := by omega
  have hhd : d / 2 + 2 ≤ d := by omega
  generalize hP : next_prime ((10 : ℤ) ^ (d / 2)) = p
  have h10h2 : (2 : ℤ) ≤ 10 ^ (d / 2) := by
    calc (2 : ℤ) ≤ 10 ^ 1 := by norm_num
      _ ≤ 10 ^ (d / 2) := pow_le_pow_right₀ (by norm_num) hh1
  have hp_prime : is_prime p = true := by
    rw [← hP]
    exact (next_prime_spec _).1
  have hp_gt : (10 : ℤ) ^ (d / 2) < p := by
    rw [← hP]
    exact (next_prime_spec _).2.1
  have hp_le : p ≤ 2 * 10 ^ (d / 2) := by
    rw [← hP]
    exact next_prime_le_two_mul _ h10h2
  have hp10 : (10 : ℤ) ≤ p := by
    have h1 : (10 : ℤ) ≤ 10 ^ (d / 2) := by
      calc (10 : ℤ) = 10 ^ 1 := (pow_one _).symm
        _ ≤ 10 ^ (d / 2) := pow_le_pow_right₀ (by norm_num) hh1
    omega
  have hp0 : (0 : ℤ) < p := by omega
  generalize hQT : Int.fdiv ((10 : ℤ) ^ d) p = qt
  have hqt_eq : qt = (10 : ℤ) ^ d / p := by
    rw [← hQT]
    exact Int.fdiv_eq_ediv _ (by omega)
  have hq_up : (10 : ℤ) ^ d < (qt + 1) * p := by
    rw [hqt_eq]
    exact Int.lt_ediv_add_one_mul_self _ hp0
  have hq_low : qt * p ≤ (10 : ℤ) ^ d := by
    rw [hqt_eq]
    exact Int.ediv_mul_le _ (by omega)
  have hqt0 : 0 ≤ qt := by
    rw [hqt_eq]
    exact Int.ediv_nonneg (by positivity) (by omega)
  have hqt2 : 2 ≤ qt := by
    rw [hqt_eq, Int.le_ediv_iff_mul_le hp0]
    have e1 : (10 : ℤ) ^ (d / 2 + 2) ≤ 10 ^ d :=
      pow_le_pow_right₀ (by norm_num) (by omega)
    have e2 : (10 : ℤ) ^ (d / 2 + 2) = 10 ^ (d / 2) * 100 := by
      rw [pow_add]
      norm_num
    omega
  generalize hQ : next_prime qt = q0
  have hq_prime : is_prime q0 = true := by
    rw [← hQ]
    exact (next_prime_spec _).1
  have hq_gt : qt < q0 := by
    rw [← hQ]
    exact (next_prime_spec _).2.1
  have hq_le2 : q0 ≤ 2 * qt := by
    rw [← hQ]
    exact next_prime_le_two_mul _ hqt2
  have hprod_gt : (10 : ℤ) ^ d < p * q0 := by
    have h1 : (qt + 1) * p ≤ q0 * p :=
      mul_le_mul_of_nonneg_right (by omega) (by omega)
    have h2 : (10 : ℤ) ^ d < q0 * p := lt_of_lt_of_le hq_up h1
    rw [mul_comm] at h2
    exact h2
  have hpow_pos : (0 : ℤ) < 10 ^ (d - 1) := pow_pos (by norm_num) _
  have hd_mono : (10 : ℤ) ^ (d - 1) ≤ 10 ^ d :=
    pow_le_pow_right₀ (by norm_num) (by omega)
  have hlow : (10 : ℤ) ^ (d - 1) ≤ p * q0 := by omega
  have hsucc : (10 : ℤ) ^ d = 10 * 10 ^ (d - 1) := by
    rw [← pow_succ']
    congr 1
    omega
  have hqt_le : qt ≤ 10 ^ (d - 1) := by
    have h1 : 10 * qt ≤ p * qt := mul_le_mul_of_nonneg_right hp10 hqt0
    have h2 : p * qt ≤ 10 ^ d := by
      rw [mul_comm]
      exact hq_low
    omega
  have hfuelq : q0.toNat < 10 ^ d + 10 := by
    have ecast : ((10 ^ d + 10 : ℕ) : ℤ) = (10 : ℤ) ^ d + 10 := by
      push_cast
      ring
    omega
  obtain ⟨q', he, hq'p, hq'low, hq'high⟩ :=
    shrinkF_correct d (d / 2) p hh1 hhd hp0 hp_le (10 ^ d + 10) q0
      hq_prime hlow hfuelq
  have hq'pos : (1 : ℤ) ≤ p * q' := by omega
  have hlen : lenStr (p * q') = d := by
    rw [lenStr_eq_iff hq'pos (by omega)]
    exact ⟨hq'low, hq'high⟩
  have hgrow : growF d p (10 ^ d + 10) q' = some (q', p * q') := by
    have hsplit : (10 : ℕ) ^ d + 10 = (10 ^ d + 9) + 1 := by omega
    rw [hsplit]
    have hnot : ¬ lenStr (p * q') < d := by omega
    simp [growF, hnot]
  refine ⟨p, q', p * q', ?_, hp_prime, hq'p, rfl, hlen⟩
  unfold generate_semiprime generate_semiprimeF
  rw [hP]
  unfold gsBody
  rw [hQT, hQ, he]
  simp [hgrow]

lemma innerF_unfold (minV maxV count p : ℤ) (f : ℕ) (q : ℤ)
    (rs : List (ℤ × ℤ × ℤ)) :
    innerF minV maxV count p (f + 1) q rs =
      (if p * q ≤ maxV then
        if minV ≤ p * q ∧ p * q ≤ maxV ∧ lenStr (p * q) = lenStr minV then
          if count ≤ (((rs ++ [(p, q, p * q)]).length : ℕ) : ℤ) then
            some (rs ++ [(p, q, p * q)])
          else innerF minV maxV count p f (next_prime q) (rs ++ [(p, q, p * q)])
        else innerF minV maxV count p f (next_prime q) rs
      else some rs) := rfl

lemma innerF_some (minV maxV count p : ℤ) (hp : 3 ≤ p) :
    ∀ (fuel : ℕ) (q : ℤ) rs, 3 ≤ q → maxV < p * q + 3 * (fuel : ℤ) →
      ∃ l, innerF minV maxV count p (fuel + 1) q rs = some l := by
  intro fuel
  induction fuel with
  | zero =>
    intro q rs hq hb
    have hguard : ¬ p * q ≤ maxV := by
      push_cast at hb
      omega
    rw [innerF_unfold, if_neg hguard]
    exact ⟨rs, rfl⟩
  | succ f ih =>
    intro q rs hq hb
    by_cases hguard : p * q ≤ maxV
    · have hq' : 3 ≤ next_prime q := next_prime_ge_three q
      have hqlt : q < next_prime q := (next_prime_spec q).2.1
      have hstep : p * q + 3 ≤ p * next_prime q := by
        have h1 : p * (q + 1) ≤ p * next_prime q :=
          mul_le_mul_of_nonneg_left (by omega) (by omega)
        nlinarith
      have hb' : ∀ rs', ∃ l,
          innerF minV maxV count p (f + 1) (next_prime q) rs' = some l := by
        intro rs'
        refine ih (next_prime q) rs' hq' ?_
        push_cast at hb ⊢
        omega
      rw [innerF_unfold, if_pos hguard]
      by_cases hfilter :
          minV ≤ p * q ∧ p * q ≤ maxV ∧ lenStr (p * q) = lenStr minV
      · rw [if_pos hfilter]
        by_cases hbreak :
            count ≤ (((rs ++ [(p, q, p * q)]).length : ℕ) : ℤ)
        · rw [if_pos hbreak]
          exact ⟨rs ++ [(p, q, p * q)], rfl⟩
        · rw [if_neg hbreak]
          exact hb' (rs ++ [(p, q, p * q)])
      · rw [if_neg hfilter]
        exact hb' rs
    · rw [innerF_unfold, if_neg hguard]
      exact ⟨rs, rfl⟩

lemma innerF_mem (minV maxV count p : ℤ) :
    ∀ (fuel : ℕ) (q : ℤ) rs l, innerF minV maxV count p fuel q rs = some l →
      ∀ x ∈ l, x ∈ rs ∨
        (x.1 = p ∧ x.2.2 = p * x.2.1 ∧ minV ≤ x.2.2 ∧ x.2.2 ≤ maxV ∧
          lenStr x.2.2 = lenStr minV) := by
  intro fuel
  induction fuel with
  | zero =>
    intro q rs l h
    exact absurd h (by simp [innerF])
  | succ f ih =>
    intro q rs l h
    rw [innerF_unfold] at h
    by_cases hguard : p * q ≤ maxV
    · rw [if_pos hguard] at h
      by_cases hfilter :
          minV ≤ p * q ∧ p * q ≤ maxV ∧ lenStr (p * q) = lenStr minV
      · rw [if_pos hfilter] at h
        have hnew : ∀ x ∈ rs ++ [(p, q, p * q)], x ∈ rs ∨
            (x.1 = p ∧ x.2.2 = p * x.2.1 ∧ minV ≤ x.2.2 ∧ x.2.2 ≤ maxV ∧
              lenStr x.2.2 = lenStr minV) := by
          intro x hx
          rcases List.mem_append.1 hx with hxl | hxr
          · exact Or.inl hxl
          · have hx1 : x = (p, q, p * q) := by simpa using hxr
            subst hx1
            exact Or.inr ⟨rfl, rfl, hfilter.1, hfilter.2.1, hfilter.2.2⟩
        by_cases hbreak :
            count ≤ (((rs ++ [(p, q, p * q)]).length : ℕ) : ℤ)
        · rw [if_pos hbreak] at h
          have hl : l = rs ++ [(p, q, p * q)] := (Option.some.inj h).symm
          rw [hl]
          exact hnew
        · rw [if_neg hbreak] at h
          intro x hx
          rcases ih (next_prime q) (rs ++ [(p, q, p * q)]) l h x hx with hin | hP
          · exact hnew x hin
          · exact Or.inr hP
      · rw [if_neg hfilter] at h
        exact ih (next_prime q) rs l h
    · rw [if_neg hguard] at h
      have hl : l = rs := (Option.some.inj h).symm
      rw [hl]
      intro x hx
      exact Or.inl hx

lemma innerF_len (minV maxV count p : ℤ) :
    ∀ (fuel : ℕ) (q : ℤ) rs l, innerF minV maxV count p fuel q rs = some l →
      (rs.length : ℤ) < count → (l.length : ℤ) ≤ count := by
  intro fuel
  induction fuel with
  | zero =>
    intro q rs l h
    exact absurd h (by simp [innerF])
  | succ f ih =>
    intro q rs l h hlen
    rw [innerF_unfold] at h
    by_cases hguard : p * q ≤ maxV
    · rw [if_pos hguard] at h
      by_cases hfilter :
          minV ≤ p * q ∧ p * q ≤ maxV ∧ lenStr (p * q) = lenStr minV
      · rw [if_pos hfilter] at h
        by_cases hbreak :
            count ≤ (((rs ++ [(p, q, p * q)]).length : ℕ) : ℤ)
        · rw [if_pos hbreak] at h
          have hl : l = rs ++ [(p, q, p * q)] := (Option.some.inj h).symm
          rw [hl]
          have : (rs ++ [(p, q, p * q)]).length = rs.length + 1 := by simp
          rw [this]
          push_cast
          omega
        · rw [if_neg hbreak] at h
          refine ih (next_prime q) (rs ++ [(p, q, p * q)]) l h ?_
          have : (rs ++ [(p, q, p * q)]).length = rs.length + 1 := by simp
          rw [this] at hbreak ⊢
          push_cast at hbreak ⊢
          omega
      · rw [if_neg hfilter] at h
        exact ih (next_prime q) rs l h hlen
    · rw [if_neg hguard] at h
      have hl : l = rs := (Option.some.inj h).symm
      rw [hl]
      omega

lemma innerF_pairwise (minV maxV count p : ℤ) :
    ∀ (fuel : ℕ) (q : ℤ) rs l, innerF minV maxV count p fuel q rs = some l →
      List.Pairwise lexLT rs →
      (∀ x ∈ rs, x.1 < p ∨ (x.1 = p ∧ x.2.1 < q)) →
      List.Pairwise lexLT l := by
  intro fuel
  induction fuel with
  | zero =>
    intro q rs l h
    exact absurd h (by simp [innerF])
  | succ f ih =>
    intro q rs l h hpw hbound
    rw [innerF_unfold] at h
    by_cases hguard : p * q ≤ maxV
    · rw [if_pos hguard] at h
      by_cases hfilter :
          minV ≤ p * q ∧ p * q ≤ maxV ∧ lenStr (p * q) = lenStr minV
      · rw [if_pos hfilter] at h
        have hpw' : List.Pairwise lexLT (rs ++ [(p, q, p * q)]) := by
          rw [List.pairwise_append]
          refine ⟨hpw, List.pairwise_singleton _ _, ?_⟩
          intro a ha b hb
          have hb1 : b = (p, q, p * q) := by simpa using hb
          subst hb1
          simpa [lexLT] using hbound a ha
        have hqlt : q < next_prime q := (next_prime_spec q).2.1
        have hbound' : ∀ x ∈ rs ++ [(p, q, p * q)],
            x.1 < p ∨ (x.1 = p ∧ x.2.1 < next_prime q) := by
          intro x hx
          rcases List.mem_append.1 hx with hxl | hxr
          · rcases hbound x hxl with h1 | ⟨h1, h2⟩
            · exact Or.inl h1
            · exact Or.inr ⟨h1, by omega⟩
          · have hx1 : x = (p, q, p * q) := by simpa using hxr
            subst hx1
            exact Or.inr ⟨rfl, hqlt⟩
        by_cases hbreak :
            count ≤ (((rs ++ [(p, q, p * q)]).length : ℕ) : ℤ)
        · rw [if_pos hbreak] at h
          have hl : l = rs ++ [(p, q, p * q)] := (Option.some.inj h).symm
          rw [hl]
          exact hpw'
        · rw [if_neg hbreak] at h
          exact ih (next_prime q) (rs ++ [(p, q, p * q)]) l h hpw' hbound'
      · rw [if_neg hfilter] at h
        have hqlt : q < next_prime q := (next_prime_spec q).2.1
        refine ih (next_prime q) rs l h hpw ?_
        intro x hx
        rcases hbound x hx with h1 | ⟨h1, h2⟩
        · exact Or.inl h1
        · exact Or.inr ⟨h1, by omega⟩
    · rw [if_neg hguard] at h
      have hl : l = rs := (Option.some.inj h).symm
      rw [hl]
      exact hpw

lemma outerF_unfold (minV maxV count : ℤ) (iF f : ℕ) (p : ℤ)
    (rs : List (ℤ × ℤ × ℤ)) :
    outerF minV maxV count iF (f + 1) p rs =
      (if (rs.length : ℤ) < count ∧ p * p < maxV then
        (innerF minV maxV count p iF (next_prime (Int.fdiv minV p)) rs).bind
          (outerF minV maxV count iF f (next_prime p))
      else some rs) := rfl

lemma outerF_some (minV maxV count : ℤ) (iF : ℕ)
    (hinner : ∀ (p : ℤ) rs, 3 ≤ p →
      ∃ l, innerF minV maxV count p iF (next_prime (Int.fdiv minV p)) rs = some l) :
    ∀ (fuel : ℕ) (p : ℤ) rs, 3 ≤ p → maxV < p * p + 7 * (fuel : ℤ) →
      ∃ l, outerF minV maxV count iF (fuel + 1) p rs = some l := by
  intro fuel
  induction fuel with
  | zero =>
    intro p rs hp hb
    have hguard : ¬ ((rs.length : ℤ) < count ∧ p * p < maxV) := by
      intro ⟨_, hc⟩
      push_cast at hb
      omega
    rw [outerF_unfold, if_neg hguard]
    exact ⟨rs, rfl⟩
  | succ f ih =>
    intro p rs hp hb
    by_cases hguard : (rs.length : ℤ) < count ∧ p * p < maxV
    · rw [outerF_unfold, if_pos hguard]
      obtain ⟨l', hl'⟩ := hinner p rs hp
      rw [hl', Option.some_bind]
      have hp' : p < next_prime p := (next_prime_spec p).2.1
      have hsq : p * p + 7 ≤ next_prime p * next_prime p := by
        have h1 : (p + 1) * (p + 1) ≤ next_prime p * next_prime p := by
          have := mul_le_mul (by omega : p + 1 ≤ next_prime p)
            (by omega : p + 1 ≤ next_prime p) (by omega) (by omega)
          exact this
        nlinarith
      refine ih (next_prime p) l' (by omega) ?_
      push_cast at hb ⊢
      omega
    · rw [outerF_unfold, if_neg hguard]
      exact ⟨rs, rfl⟩

lemma outerF_mem (minV maxV count : ℤ) (iF : ℕ) :
    ∀ (fuel : ℕ) (p : ℤ) rs l, outerF minV maxV count iF fuel p rs = some l →
      ∀ x ∈ l, x ∈ rs ∨
        (x.2.2 = x.1 * x.2.1 ∧ minV ≤ x.2.2 ∧ x.2.2 ≤ maxV ∧
          lenStr x.2.2 = lenStr minV) := by
  intro fuel
  induction fuel with
  | zero =>
    intro p rs l h
    exact absurd h (by simp [outerF])
  | succ f ih =>
    intro p rs l h
    rw [outerF_unfold] at h
    by_cases hguard : (rs.length : ℤ) < count ∧ p * p < maxV
    · rw [if_pos hguard] at h
      rw [Option.bind_eq_some] at h
      obtain ⟨l', hl', hrec⟩ := h
      intro x hx
      rcases ih (next_prime p) l' l hrec x hx with hin | hP
      · rcases innerF_mem minV maxV count p iF _ rs l' hl' x hin with hin2 | hP2
        · exact Or.inl hin2
        · refine Or.inr ⟨?_, hP2.2.2.1, hP2.2.2.2.1, hP2.2.2.2.2⟩
          rw [hP2.2.1, hP2.1]
      · exact Or.inr hP
    · rw [if_neg hguard] at h
      have hl : l = rs := (Option.some.inj h).symm
      rw [hl]
      intro x hx
      exact Or.inl hx

lemma outerF_len (minV maxV count : ℤ) (iF : ℕ) :
    ∀ (fuel : ℕ) (p : ℤ) rs l, outerF minV maxV count iF fuel p rs = some l →
      (rs.length : ℤ) ≤ count → (l.length : ℤ) ≤ count := by
  intro fuel
  induction fuel with
  | zero =>
    intro p rs l h
    exact absurd h (by simp [outerF])
  | succ f ih =>
    intro p rs l h hlen
    rw [outerF_unfold] at h
    by_cases hguard : (rs.length : ℤ) < count ∧ p * p < maxV
    · rw [if_pos hguard] at h
      rw [Option.bind_eq_some] at h
      obtain ⟨l', hl', hrec⟩ := h
      have hlen' : (l'.length : ℤ) ≤ count :=
        innerF_len minV maxV count p iF _ rs l' hl' hguard.1
      exact ih (next_prime p) l' l hrec hlen'
    · rw [if_neg hguard] at h
      have hl : l = rs := (Option.some.inj h).symm
      rw [hl]
      exact hlen

lemma outerF_pairwise (minV maxV count : ℤ) (iF : ℕ) :
    ∀ (fuel : ℕ) (p : ℤ) rs l, outerF minV maxV count iF fuel p rs = some l →
      List.Pairwise lexLT rs → (∀ x ∈ rs, x.1 < p) →
      List.Pairwise lexLT l := by
  intro fuel
  induction fuel with
  | zero =>
    intro p rs l h
    exact absurd h (by simp [outerF])
  | succ f ih =>
    intro p rs l h hpw hbound
    rw [outerF_unfold] at h
    by_cases hguard : (rs.length : ℤ) < count ∧ p * p < maxV
    · rw [if_pos hguard] at h
      rw [Option.bind_eq_some] at h
      obtain ⟨l', hl', hrec⟩ := h
      have hpw' : List.Pairwise lexLT l' :=
        innerF_pairwise minV maxV count p iF _ rs l' hl' hpw
          (fun x hx => Or.inl (hbound x hx))
      have hplt : p < next_prime p := (next_prime_spec p).2.1
      have hbound' : ∀ x ∈ l', x.1 < next_prime p := by
        intro x hx
        rcases innerF_mem minV maxV count p iF _ rs l' hl' x hx with hin | hP
        · have := hbound x hin
          omega
        · rw [hP.1]
          exact hplt
      exact ih (next_prime p) l' l hrec hpw' hbound'
    · rw [if_neg hguard] at h
      have hl : l = rs := (Option.some.inj h).symm
      rw [hl]
      exact hpw

lemma find_semiprimes_eq (minV maxV count : ℤ) :
    ∃ l, outerF minV maxV count (maxV.toNat + 2) (maxV.toNat + 2)
        (next_prime ((isqrt minV.toNat : ℕ) : ℤ)) [] = some l ∧
      find_semiprimes_in_range minV maxV count = l := by
  have hinner : ∀ (p : ℤ) rs, 3 ≤ p →
      ∃ l', innerF minV maxV count p (maxV.toNat + 2)
        (next_prime (Int.fdiv minV p)) rs = some l' := by
    intro p rs hp
    have hq3 : 3 ≤ next_prime (Int.fdiv minV p) := next_prime_ge_three _
    have h9 : 9 ≤ p * next_prime (Int.fdiv minV p) := by
      calc (9 : ℤ) = 3 * 3 := by norm_num
        _ ≤ p * next_prime (Int.fdiv minV p) :=
          mul_le_mul hp hq3 (by norm_num) (by omega)
    have h22 : maxV.toNat + 2 = (maxV.toNat + 1) + 1 := rfl
    rw [h22]
    refine innerF_some minV maxV count p hp (maxV.toNat + 1) _ rs hq3 ?_
    push_cast
    omega
  have hp3 : 3 ≤ next_prime ((isqrt minV.toNat : ℕ) : ℤ) :=
    next_prime_ge_three _
  have h9 : 9 ≤ next_prime ((isqrt minV.toNat : ℕ) : ℤ) *
      next_prime ((isqrt minV.toNat : ℕ) : ℤ) := by
    calc (9 : ℤ) = 3 * 3 := by norm_num
      _ ≤ _ := mul_le_mul hp3 hp3 (by norm_num) (by omega)
  have h22 : maxV.toNat + 2 = (maxV.toNat + 1) + 1 := rfl
  obtain ⟨l, hl⟩ := outerF_some minV maxV count (maxV.toNat + 2) hinner
    (maxV.toNat + 1) (next_prime ((isqrt minV.toNat : ℕ) : ℤ)) [] hp3
    (by push_cast; omega)
  rw [← h22] at hl
  refine ⟨l, hl, ?_⟩
  unfold find_semiprimes_in_range
  rw [hl]
  rfl

/-- Claim C1: for every digit count `d` in `[2, 15]`, `generate_semiprime d`
returns a triple `(p, q, product)` with `p` prime, `q` prime,
`p * q = product`, and the decimal length of `product` exactly `d`. -/
theorem generate_semiprime_digits :
    ∀ d : ℕ, 2 ≤ d → d ≤ 15 →
      ∃ p q n, generate_semiprime d = some (p, q, n) ∧ Prime p ∧ Prime q ∧
        p * q = n ∧ lenStr n = d := by
  intro d h2 h15
  by_cases hd3 : 3 ≤ d
  · obtain ⟨p, q, n, he, hp, hq, hm, hl⟩ := generate_semiprime_valid_of_ge3 d hd3
    exact ⟨p, q, n, he, (is_prime_iff.1 hp).2, (is_prime_iff.1 hq).2, hm, hl⟩
  · have hd2 : d = 2 := by omega
    subst hd2
    have h11 : is_prime (11 : ℤ) = true := by decide
    have h7 : is_prime (7 : ℤ) = true := by decide
    exact ⟨11, 7, 77, by decide, (is_prime_iff.1 h11).2, (is_prime_iff.1 h7).2,
      by norm_num, by decide⟩

/-- Witness for C1 at the concrete digit count 2. -/
theorem generate_semiprime_digits_witness :
    ∃ p q n, generate_semiprime 2 = some (p, q, n) ∧ Prime p ∧ Prime q ∧
      p * q = n ∧ lenStr n = 2 :=
  generate_semiprime_digits 2 (by norm_num) (by norm_num)

/-- Claim C2: `find_semiprimes_in_range min_val max_val count` returns at most
`count` triples, and every returned triple `(p, q, product)` satisfies
`p * q = product`, `min_val ≤ product ≤ max_val`, and the decimal length of
`product` equals that of `min_val`. -/
theorem find_semiprimes_in_range_sound :
    ∀ minV maxV count : ℤ, 1 ≤ minV → 1 ≤ count →
      ((find_semiprimes_in_range minV maxV count).length : ℤ) ≤ count ∧
      ∀ x ∈ find_semiprimes_in_range minV maxV count,
        x.2.2 = x.1 * x.2.1 ∧ minV ≤ x.2.2 ∧ x.2.2 ≤ maxV ∧
          lenStr x.2.2 = lenStr minV := by
  intro minV maxV count h1 hc
  obtain ⟨l, hl, hfind⟩ := find_semiprimes_eq minV maxV count
  rw [hfind]
  constructor
  · exact outerF_len minV maxV count (maxV.toNat + 2) (maxV.toNat + 2)
      _ _ _ hl (by simp; omega)
  · intro x hx
    rcases outerF_mem minV maxV count (maxV.toNat + 2) (maxV.toNat + 2)
        _ _ _ hl x hx with hin | hP
    · exact absurd hin (List.not_mem_nil x)
    · exact hP

/-- Witness for C2 at concrete arguments (the guard fails at entry, so the
returned list is empty and the properties hold trivially). -/
theorem find_semiprimes_in_range_sound_witness :
    ((find_semiprimes_in_range 10 5 1).length : ℤ) ≤ 1 ∧
      ∀ x ∈ find_semiprimes_in_range 10 5 1,
        x.2.2 = x.1 * x.2.1 ∧ (10 : ℤ) ≤ x.2.2 ∧ x.2.2 ≤ (5 : ℤ) ∧
          lenStr x.2.2 = lenStr 10 :=
  find_semiprimes_in_range_sound 10 5 1 (by norm_num) (by norm_num)

/-- Claim C8: whichever fuel the adjustment loops are given, when
`generate_semiprimeF` returns a triple its first component is exactly
`next_prime (10 ^ (d / 2))`: the shrink and grow loops modify only `q` and
the product, never `p`. -/
theorem generate_semiprime_p_fixed :
    ∀ (fuel d : ℕ) (p q n : ℤ), generate_semiprimeF fuel d = some (p, q, n) →
      p = next_prime ((10 : ℤ) ^ (d / 2)) := by
  intro fuel d p q n h
  unfold generate_semiprimeF at h
  have h1 := gsBody_fst h
  exact h1.symm ▸ rfl

/-- Witness for C8 at digit count 2. -/
theorem generate_semiprime_p_fixed_witness :
    (11 : ℤ) = next_prime ((10 : ℤ) ^ (2 / 2)) :=
  generate_semiprime_p_fixed (10 ^ 2 + 10) 2 11 7 77 (by decide)

/-- Claim C10: `prev_prime` is total: for every integer `n` the loop, started at
`n - 1` or `n - 2`, halts within its fuel bound (the candidate strictly
decreases and the loop exits as soon as it is `≤ 2` or prime), and
`prev_prime n` is its result. -/
theorem prev_prime_terminates :
    ∀ n : ℤ, ∃ r, prevLoopF (prevFuel n) (prevStart n) = some r ∧
      prev_prime n = r ∧ (r ≤ 2 ∨ is_prime r = true) ∧
      (prevStart n = n - 1 ∨ prevStart n = n - 2) := by
  intro n
  obtain ⟨r, hr⟩ := prev_prime_eq_some n
  refine ⟨r, hr, ?_, (prevLoopF_spec _ _ _ hr).2.2.1, prevStart_cases n⟩
  unfold prev_prime
  rw [hr]
  rfl

/-- Claim C4 counterexample: `next_prime 1 = 3`, yet 2 is a prime strictly
between 1 and 3, so the minimality clause of the claim fails at `n = 1`
(the candidate sequence is always odd and skips 2). -/
theorem next_prime_minimality_cex :
    next_prime 1 = 3 ∧ Prime (2 : ℤ) ∧ (1 : ℤ) < 2 ∧ (2 : ℤ) < 3 :=
  ⟨by decide, Int.prime_two, by norm_num, by norm_num⟩

/-- Claim C4 amended: for every `n ≥ 2`, `next_prime n` is a prime strictly
greater than `n` with no prime strictly between `n` and it. -/
theorem next_prime_minimal_ge_two :
    ∀ n : ℤ, 2 ≤ n → Prime (next_prime n) ∧ n < next_prime n ∧
      ∀ m : ℤ, n < m → m < next_prime n → ¬ Prime m := by
  intro n hn
  obtain ⟨h1, h2, h3, h4⟩ := next_prime_spec n
  refine ⟨(is_prime_iff.1 h1).2, h2, ?_⟩
  intro m hm1 hm2 hp
  have hm2' : 2 ≤ m := by omega
  have hmp : is_prime m = true := is_prime_iff.2 ⟨hm2', hp⟩
  have hodd : m % 2 = 1 := by
    rcases is_prime_odd_or_two m hmp with he | ho
    · omega
    · exact ho
  have hfalse := h4 m hm1 hm2 hodd
  rw [hmp] at hfalse
  exact absurd hfalse (by simp)

/-- Witness for the amended C4 at `n = 3`. -/
theorem next_prime_minimal_ge_two_witness :
    Prime (next_prime 3) ∧ (3 : ℤ) < next_prime 3 ∧
      ∀ m : ℤ, 3 < m → m < next_prime 3 → ¬ Prime m :=
  next_prime_minimal_ge_two 3 (by norm_num)

/-- Claim C5 counterexample: at `n = 3` (where no prime above 2 lies below `n`)
the code returns 1 — not 2 as the claim states, and not a prime. -/
theorem prev_prime_three_cex :
    prev_prime 3 = 1 ∧ ¬ Prime (1 : ℤ) ∧ (1 : ℤ) ≠ 2 :=
  ⟨by decide, not_prime_one, by norm_num⟩

/-- Claim C5 amended: for every `n > 3`, `prev_prime n` is a prime strictly less
than `n` with no prime strictly between them; at `n = 3`, the only `n > 2`
for which no odd prime lies below `n`, the function returns 1 (not 2). -/
theorem prev_prime_minimal_gt_three :
    (∀ n : ℤ, 3 < n → Prime (prev_prime n) ∧ prev_prime n < n ∧
      ∀ m : ℤ, prev_prime n < m → m < n → ¬ Prime m) ∧
      prev_prime 3 = 1 := by
  constructor
  · intro n hn
    obtain ⟨hp, h3⟩ := prev_prime_of_gt_three n hn
    refine ⟨(is_prime_iff.1 hp).2, (prev_prime_spec n).1, ?_⟩
    intro m hm1 hm2 hmp
    have hmp' : is_prime m = true := is_prime_iff.2 ⟨by omega, hmp⟩
    have hodd : m % 2 = 1 := by
      rcases is_prime_odd_or_two m hmp' with he | ho
      · omega
      · exact ho
    have hfalse := (prev_prime_spec n).2.2.2 m hm1 hm2 hodd
    rw [hmp'] at hfalse
    exact absurd hfalse (by simp)
  · decide

/-- Witness for the amended C5 at `n = 4`. -/
theorem prev_prime_minimal_gt_three_witness :
    Prime (prev_prime 4) ∧ prev_prime 4 < 4 ∧
      ∀ m : ℤ, prev_prime 4 < m → m < 4 → ¬ Prime m :=
  prev_prime_minimal_gt_three.1 4 (by norm_num)

/-- Claim C6: `find_semiprimes_in_range` starts the outer loop at
`p = next_prime(isqrt min_val)` on an empty result list; the outer loop
returns its accumulated results exactly when `count` results have been
collected or `p * p < max_val` fails, and otherwise runs the inner scan and
continues at `next_prime p`; consequently, when the guard fails at entry
the function returns the empty list. -/
theorem find_semiprimes_loop_structure :
    (∀ minV maxV count : ℤ,
      find_semiprimes_in_range minV maxV count =
        (outerF minV maxV count (maxV.toNat + 2) (maxV.toNat + 2)
          (next_prime ((isqrt minV.toNat : ℕ) : ℤ)) []).getD []) ∧
    (∀ (minV maxV count : ℤ) (iF f : ℕ) (p : ℤ) rs,
      ¬ ((rs.length : ℤ) < count ∧ p * p < maxV) →
      outerF minV maxV count iF (f + 1) p rs = some rs) ∧
    (∀ (minV maxV count : ℤ) (iF f : ℕ) (p : ℤ) rs,
      (rs.length : ℤ) < count → p * p < maxV →
      outerF minV maxV count iF (f + 1) p rs =
        (innerF minV maxV count p iF (next_prime (Int.fdiv minV p)) rs).bind
          (outerF minV maxV count iF f (next_prime p))) ∧
    (∀ minV maxV count : ℤ,
      ¬ ((0 : ℤ) < count ∧
          next_prime ((isqrt minV.toNat : ℕ) : ℤ) *
            next_prime ((isqrt minV.toNat : ℕ) : ℤ) < maxV) →
      find_semiprimes_in_range minV maxV count = []) := by
  refine ⟨fun _ _ _ => rfl, ?_, ?_, ?_⟩
  · intro minV maxV count iF f p rs hguard
    rw [outerF_unfold, if_neg hguard]
  · intro minV maxV count iF f p rs h1 h2
    rw [outerF_unfold, if_pos ⟨h1, h2⟩]
  · intro minV maxV count hguard
    obtain ⟨l, hl, hfind⟩ := find_semiprimes_eq minV maxV count
    have h22 : maxV.toNat + 2 = (maxV.toNat + 1) + 1 := rfl
    rw [h22, outerF_unfold, if_neg (by simpa using hguard)] at hl
    rw [hfind, ← Option.some.inj hl]

/-- Witness for C6: with `count = 0` the guard fails at entry and the
result is empty. -/
theorem find_semiprimes_loop_structure_witness :
    find_semiprimes_in_range 10 20 0 = [] :=
  find_semiprimes_loop_structure.2.2.2 10 20 0 (by norm_num)

/-- Claim C9: the report's per-entry logic emits the product line exactly when
`p * q = n` and the digit count matches (with the BASELINE tag exactly for
the 8-digit group); on either mismatch it emits the corresponding error
line instead; and the report is a total function that processes every
entry of every group in sequence. -/
theorem report_entry_validation :
    (∀ (digits : ℕ) (p q n : ℤ),
      entryLine digits (p, q, n) =
          ReportLine.product n p q (decide (digits = 8)) ↔
        p * q = n ∧ lenStr n = digits) ∧
    (∀ (digits : ℕ) (p q n : ℤ), p * q ≠ n ∨ lenStr n ≠ digits →
      entryLine digits (p, q, n) = ReportLine.errorFactor p q n ∨
        entryLine digits (p, q, n) = ReportLine.errorDigits n digits) ∧
    (∀ (g : ℕ × List (ℤ × ℤ × ℤ)) gs,
      reportLines (g :: gs) = groupLines g.1 g.2 ++ reportLines gs) ∧
    (∀ (digits : ℕ) (entries : List (ℤ × ℤ × ℤ)),
      groupLines digits entries =
        ReportLine.header digits ::
          entries.map (entryLine digits) ++ [ReportLine.blank]) := by
  refine ⟨?_, ?_, fun _ _ => rfl, fun _ _ => rfl⟩
  · intro digits p q n
    by_cases h1 : p * q ≠ n
    · rw [entryLine, if_pos h1]
      constructor
      · intro hcon
        exact absurd hcon (by simp)
      · intro ⟨hc, _⟩
        exact absurd hc h1
    · rw [entryLine, if_neg h1]
      by_cases h2 : lenStr n ≠ digits
      · rw [if_pos h2]
        constructor
        · intro hcon
          exact absurd hcon (by simp)
        · intro ⟨_, hc⟩
          exact absurd hc h2
      · rw [if_neg h2]
        push_neg at h1 h2
        simp only [true_iff, iff_true]
        exact ⟨h1, h2⟩
  · intro digits p q n hmis
    by_cases h1 : p * q ≠ n
    · left
      rw [entryLine, if_pos h1]
    · right
      have h2 : lenStr n ≠ digits := by
        push_neg at h1
        rcases hmis with hc | hc
        · exact absurd h1 hc
        · exact hc
      rw [entryLine, if_neg h1, if_pos h2]

/-- Witness for C9: a factorization mismatch produces an error line. -/
theorem report_entry_validation_witness :
    entryLine 8 (2, 3, 7) = ReportLine.errorFactor 2 3 7 ∨
      entryLine 8 (2, 3, 7) = ReportLine.errorDigits 7 8 :=
  report_entry_validation.2.1 8 2 3 7 (Or.inl (by decide))

/-- Claim C3: `is_prime` agrees with primality (false below 2, true at 2, false
for even `n > 2`), and for odd `n > 2` it returns false exactly when some
odd integer `i` with `3 ≤ i` and `i² ≤ n` (that is, `i ≤ ⌊√n⌋`) divides
`n`. -/
theorem is_prime_correct :
    ∀ n : ℤ, (is_prime n = true ↔ 2 ≤ n ∧ Prime n) ∧
      (2 < n → n % 2 = 1 →
        (is_prime n = false ↔
          ∃ i : ℤ, 3 ≤ i ∧ i * i ≤ n ∧ i % 2 = 1 ∧ i ∣ n)) := by
  intro n
  refine ⟨is_prime_iff, ?_⟩
  intro h2 hodd
  have hn3 : 3 ≤ n := by omega
  have hnat : (n.toNat : ℤ) = n := by omega
  have hunf : is_prime n =
      trialF n.toNat (isqrt n.toNat) (isqrt n.toNat + 1) 3 := by
    simp [is_prime, show ¬ n < 2 by omega, show n ≠ 2 by omega,
      show ¬ n % 2 = 0 by omega]
  have hbool : (is_prime n = false) ↔ ¬ (is_prime n = true) := by
    cases h : is_prime n <;> simp
  rw [hbool, hunf, isqrt_eq,
    trialF_eq_true_iff n.toNat (Nat.sqrt n.toNat) (Nat.sqrt n.toNat + 1) 3
      (by omega) (by omega)]
  push_neg
  constructor
  · rintro ⟨j, hj3, hjs, hjp, hjd⟩
    refine ⟨(j : ℤ), by exact_mod_cast hj3, ?_, by omega, ?_⟩
    · have hle : j * j ≤ n.toNat := Nat.le_sqrt.1 hjs
      have hle' : ((j * j : ℕ) : ℤ) ≤ ((n.toNat : ℕ) : ℤ) := by
        exact_mod_cast hle
      push_cast at hle'
      omega
    · have : (j : ℤ) ∣ (n.toNat : ℤ) := Int.natCast_dvd_natCast.2 hjd
      rwa [hnat] at this
  · rintro ⟨i, hi3, hii, hio, hid⟩
    refine ⟨i.toNat, by omega, ?_, by omega, ?_⟩
    · rw [Nat.le_sqrt]
      have hcast : ((i.toNat * i.toNat : ℕ) : ℤ) = i * i := by
        push_cast
        rw [Int.toNat_of_nonneg (by omega : (0 : ℤ) ≤ i)]
      have : ((i.toNat * i.toNat : ℕ) : ℤ) ≤ ((n.toNat : ℕ) : ℤ) := by
        rw [hcast, hnat]
        exact hii
      exact_mod_cast this
    · rw [← Int.natCast_dvd_natCast]
      rw [Int.toNat_of_nonneg (by omega : (0 : ℤ) ≤ i), hnat]
      exact hid

/-- Witness for C3: `is_prime 9` is false because the odd divisor 3
satisfies `3 ≤ 3` and `3 * 3 ≤ 9`. -/
theorem is_prime_correct_witness : is_prime 9 = false :=
  ((is_prime_correct 9).2 (by norm_num) (by norm_num)).2
    ⟨3, by norm_num, by norm_num, by norm_num, by norm_num⟩

/-- Claim C7: the results of `find_semiprimes_in_range` are strictly increasing
in the lexicographic `(p, q)` order of appending (increasing `p`, and
strictly increasing `q` within one `p`); equal products from distinct
`(p, q)` pairs are not deduplicated, as the concrete run on
`[10, 100]` shows by containing both `(5, 7, 35)` and `(7, 5, 35)`. -/
theorem find_semiprimes_ordering :
    (∀ minV maxV count : ℤ,
      List.Pairwise lexLT (find_semiprimes_in_range minV maxV count)) ∧
    (5, 7, 35) ∈ find_semiprimes_in_range 10 100 20 ∧
    (7, 5, 35) ∈ find_semiprimes_in_range 10 100 20 := by
  refine ⟨?_, by decide, by decide⟩
  intro minV maxV count
  obtain ⟨l, hl, hfind⟩ := find_semiprimes_eq minV maxV count
  rw [hfind]
  exact outerF_pairwise minV maxV count (maxV.toNat + 2) (maxV.toNat + 2)
    _ _ _ hl List.Pairwise.nil
    (fun x hx => absurd hx (List.not_mem_nil x))
